import Mathlib

/-!
Shallow embedding of the csv-to-multiple-web generator.

Strings are modelled as `List Char`.  The two substitution grammars of
`src/generator/templateProcessor.js` (`processTemplate`) are modelled as
left-to-right scanners that reproduce the semantics of the JavaScript
regular-expression replacements
  content.replace(/\{\{\s*(\w+)\s*\}\}/g, cb)   -- variable pass
  content.replace(/\[\[(.*?)\]\]/g, cb)          -- random-selection pass
including the facts that a replacement is emitted and scanning resumes
after the matched text (no re-scanning within a pass), that `\s` and `\w`
are the JavaScript character classes, and that `.` does not match line
terminators.
-/

namespace CsvWeb

/-- The character `\x7b` (left curly brace). -/
def lbrace : Char := '\x7b'

/-- The character `\x7d` (right curly brace). -/
def rbrace : Char := '\x7d'

/-- The single-quote character. -/
def squote : Char := '\x27'

/-- The double-quote character. -/
def dquote : Char := '\x22'

/-- The backslash character. -/
def bslash : Char := '\x5c'

/-- JavaScript regexp class `\s` (whitespace), also the set removed by
`String.prototype.trim`. -/
def jsSpace (c : Char) : Bool :=
  c.toNat = 32 || c.toNat = 9 || c.toNat = 10 || c.toNat = 13 ||
  c.toNat = 11 || c.toNat = 12 || c.toNat = 160 || c.toNat = 5760 ||
  (8192 ≤ c.toNat && c.toNat ≤ 8202) || c.toNat = 8232 || c.toNat = 8233 ||
  c.toNat = 8239 || c.toNat = 8287 || c.toNat = 12288 || c.toNat = 65279

/-- JavaScript regexp class `\w`: letters, digits, underscore. -/
def wordChar (c : Char) : Bool :=
  (97 ≤ c.toNat && c.toNat ≤ 122) || (65 ≤ c.toNat && c.toNat ≤ 90) ||
  (48 ≤ c.toNat && c.toNat ≤ 57) || c.toNat = 95

/-- JavaScript regexp `.` without the `s` flag: any character except the
four line terminators. -/
def jsDot (c : Char) : Bool :=
  !(c.toNat = 10 || c.toNat = 13 || c.toNat = 8232 || c.toNat = 8233)

theorem wordChar_not_jsSpace {c : Char} (h : wordChar c = true) : jsSpace c = false := by
  simp only [wordChar, Bool.or_eq_true, Bool.and_eq_true, decide_eq_true_eq] at h
  simp only [jsSpace, Bool.or_eq_false_iff, Bool.and_eq_false_iff, decide_eq_false_iff_not]
  omega

theorem jsSpace_not_wordChar {c : Char} (h : jsSpace c = true) : wordChar c = false := by
  simp only [jsSpace, Bool.or_eq_true, Bool.and_eq_true, decide_eq_true_eq] at h
  simp only [wordChar, Bool.or_eq_false_iff, Bool.and_eq_false_iff, decide_eq_false_iff_not]
  omega

/-- One global `String.prototype.replace` with a single-character pattern and a
fixed replacement string, as used by `escapeForJS`. -/
def rep (t : Char) (r : List Char) : List Char → List Char
  | [] => []
  | c :: cs => (if c = t then r else [c]) ++ rep t r cs

/-- `escapeForJS` from `src/generator/templateProcessor.js`:
`str.replace(/'/g, "\\'").replace(/"/g, '\\"').replace(/\n/g, '\\n').replace(/\r/g, '\\r')`. -/
def escapeForJS (l : List Char) : List Char :=
  rep '\r' [bslash, 'r'] (rep '\n' [bslash, 'n'] (rep dquote [bslash, dquote] (rep squote [bslash, squote] l)))

/-- Per-character escaping map: quotes and the two newline characters are
escaped, every other character (backslash included) is kept as-is.  This is
the specification-level description that `escapeForJS` is compared with. -/
def escSpec : List Char → List Char
  | [] => []
  | c :: cs =>
    (if c = squote then [bslash, squote]
     else if c = dquote then [bslash, dquote]
     else if c = '\n' then [bslash, 'n']
     else if c = '\r' then [bslash, 'r']
     else [c]) ++ escSpec cs

/-- `filePath.endsWith('.js') || filePath.endsWith('.jsx')`, the code-likeness
test of the variable pass. -/
def jsLike (fp : List Char) : Bool :=
  List.isSuffixOf ['.', 'j', 's'] fp || List.isSuffixOf ['.', 'j', 's', 'x'] fp

/-- The text matched by `/\{\{\s*(\w+)\s*\}\}/` with whitespace runs `ws1`,
`ws2` and identifier `key`. -/
def varTok (ws1 key ws2 : List Char) : List Char :=
  lbrace :: lbrace :: (ws1 ++ key ++ ws2 ++ [rbrace, rbrace])

/-- Leftmost match of `/\{\{\s*(\w+)\s*\}\}/` at the head of the text:
returns the matched text, the captured identifier, and the remainder of
the input after the match. -/
def matchVar (l : List Char) : Option (List Char × List Char × List Char) :=
  match l with
  | a :: b :: t =>
    if a = lbrace ∧ b = lbrace then
      match (t.dropWhile jsSpace).takeWhile wordChar,
            ((t.dropWhile jsSpace).dropWhile wordChar).dropWhile jsSpace with
      | k0 :: ks, c :: d :: rest =>
        if c = rbrace ∧ d = rbrace then
          some (varTok (t.takeWhile jsSpace) (k0 :: ks)
                  (((t.dropWhile jsSpace).dropWhile wordChar).takeWhile jsSpace),
                k0 :: ks, rest)
        else none
      | _, _ => none
    else none
  | _ => none

theorem length_dropWhile_le (p : Char → Bool) (l : List Char) :
    (l.dropWhile p).length ≤ l.length :=
  (List.dropWhile_sublist _).length_le

theorem matchVar_rest_length {l m key rest : List Char}
    (h : matchVar l = some (m, key, rest)) : rest.length < l.length := by
  match l with
  | [] => simp [matchVar] at h
  | [a] => simp [matchVar] at h
  | a :: b :: t =>
    simp only [matchVar] at h
    split at h
    · rename_i hab
      split at h
      · rename_i k0 ks c d r3 hk hr
        split at h
        · simp only [Option.some.injEq, Prod.mk.injEq] at h
          obtain ⟨_, _, hrest⟩ := h
          have h1 : (c :: d :: r3).length ≤ t.length := by
            calc (c :: d :: r3).length
                = (((t.dropWhile jsSpace).dropWhile wordChar).dropWhile jsSpace).length := by
                  rw [hr]
              _ ≤ ((t.dropWhile jsSpace).dropWhile wordChar).length :=
                  length_dropWhile_le _ _
              _ ≤ (t.dropWhile jsSpace).length := length_dropWhile_le _ _
              _ ≤ t.length := length_dropWhile_le _ _
          subst hrest
          simp only [List.length_cons] at h1 ⊢
          omega
        · exact absurd h (by simp)
      · exact absurd h (by simp)
    · exact absurd h (by simp)

theorem matchVar_none_of_head {c : Char} {cs : List Char} (h : c ≠ lbrace) :
    matchVar (c :: cs) = none := by
  match cs with
  | [] => rfl
  | b :: t =>
    simp only [matchVar]
    rw [if_neg]
    exact fun hc => h hc.1

/-- The replacement emitted for a variable token: the field's value when the
identifier is a known field (escaped when the file is code-like), otherwise
the matched text itself. -/
def replV (data : List (List Char × List Char)) (fp : List Char) (m key : List Char) : List Char :=
  match List.lookup key data with
  | some v => if jsLike fp then escapeForJS v else v
  | none => m

/-- Fueled variable-substitution scanner. -/
def varPassF (data : List (List Char × List Char)) (fp : List Char) :
    Nat → List Char → List Char
  | 0, _ => []
  | _ + 1, [] => []
  | n + 1, c :: cs =>
    match matchVar (c :: cs) with
    | some (m, key, rest) => replV data fp m key ++ varPassF data fp n rest
    | none => c :: varPassF data fp n cs

/-- The variable-substitution pass of `processTemplate`:
`content.replace(/\{\{\s*(\w+)\s*\}\}/g, cb)`. -/
def varPass (data : List (List Char × List Char)) (fp : List Char) (l : List Char) : List Char :=
  varPassF data fp l.length l

theorem varPassF_fuel (data : List (List Char × List Char)) (fp : List Char) :
    ∀ n m l, l.length ≤ n → l.length ≤ m →
      varPassF data fp n l = varPassF data fp m l := by
  intro n
  induction n with
  | zero =>
    intro m l hn _
    have : l = [] := List.length_eq_zero.mp (Nat.le_zero.mp hn)
    subst this
    cases m <;> rfl
  | succ n ih =>
    intro m l hn hm
    match l with
    | [] => cases m <;> rfl
    | c :: cs =>
      match m with
      | 0 => simp at hm
      | m + 1 =>
        simp only [varPassF]
        cases h : matchVar (c :: cs) with
        | some triple =>
          obtain ⟨mt, key, rest⟩ := triple
          have hlt := matchVar_rest_length h
          simp only [List.length_cons] at hlt hn hm
          dsimp only
          rw [ih m rest (by omega) (by omega)]
        | none =>
          simp only [List.length_cons] at hn hm
          dsimp only
          rw [ih m cs (by omega) (by omega)]

theorem varPass_nil (data : List (List Char × List Char)) (fp : List Char) :
    varPass data fp [] = [] := rfl

theorem varPass_cons_match {c : Char} {cs m key rest : List Char}
    (data : List (List Char × List Char)) (fp : List Char)
    (h : matchVar (c :: cs) = some (m, key, rest)) :
    varPass data fp (c :: cs) = replV data fp m key ++ varPass data fp rest := by
  have hlt := matchVar_rest_length h
  simp only [List.length_cons] at hlt
  simp only [varPass, List.length_cons, varPassF, h]
  rw [varPassF_fuel data fp cs.length rest.length rest (by omega) le_rfl]

theorem varPass_cons_none {c : Char} {cs : List Char}
    (data : List (List Char × List Char)) (fp : List Char)
    (h : matchVar (c :: cs) = none) :
    varPass data fp (c :: cs) = c :: varPass data fp cs := by
  simp only [varPass, List.length_cons, varPassF, h]

theorem takeWhile_split (p : Char → Bool) (l1 l2 : List Char)
    (h1 : ∀ c ∈ l1, p c = true) (h2 : ∀ c, l2.head? = some c → p c = false) :
    (l1 ++ l2).takeWhile p = l1 ∧ (l1 ++ l2).dropWhile p = l2 := by
  constructor
  · rw [List.takeWhile_append_of_pos h1]
    cases l2 with
    | nil => simp
    | cons c t => rw [List.takeWhile_cons_of_neg (by simp [h2 c rfl])]; simp
  · rw [List.dropWhile_append_of_pos h1]
    cases l2 with
    | nil => simp
    | cons c t => rw [List.dropWhile_cons_of_neg (by simp [h2 c rfl])]

theorem matchVar_parse {ws1 key ws2 : List Char} (post : List Char)
    (hw1 : ∀ c ∈ ws1, jsSpace c = true) (hk : key ≠ [])
    (hkw : ∀ c ∈ key, wordChar c = true) (hw2 : ∀ c ∈ ws2, jsSpace c = true) :
    matchVar (varTok ws1 key ws2 ++ post) = some (varTok ws1 key ws2, key, post) := by
  obtain ⟨k0, ks, hkey⟩ := List.exists_cons_of_ne_nil hk
  subst hkey
  have hrb_sp : jsSpace rbrace = false := by decide
  have hrb_w : wordChar rbrace = false := by decide
  have hA := takeWhile_split jsSpace ws1 ((k0 :: ks) ++ (ws2 ++ rbrace :: rbrace :: post))
    hw1 (fun c hc => by
      simp only [List.cons_append, List.head?_cons, Option.some.injEq] at hc
      subst hc
      exact wordChar_not_jsSpace (hkw k0 (List.mem_cons_self _ _)))
  have hB := takeWhile_split wordChar (k0 :: ks) (ws2 ++ rbrace :: rbrace :: post)
    hkw (fun c hc => by
      cases ws2 with
      | nil =>
        simp only [List.nil_append, List.head?_cons, Option.some.injEq] at hc
        subst hc; exact hrb_w
      | cons w wt =>
        simp only [List.cons_append, List.head?_cons, Option.some.injEq] at hc
        subst hc
        exact jsSpace_not_wordChar (hw2 w (List.mem_cons_self _ _)))
  have hC := takeWhile_split jsSpace ws2 (rbrace :: rbrace :: post)
    hw2 (fun c hc => by
      simp only [List.head?_cons, Option.some.injEq] at hc
      subst hc; exact hrb_sp)
  have htok : varTok ws1 (k0 :: ks) ws2 ++ post =
      lbrace :: lbrace :: (ws1 ++ k0 :: (ks ++ (ws2 ++ rbrace :: rbrace :: post))) := by
    simp [varTok]
  rw [htok]
  simp only [List.cons_append] at hA hB hC
  simp only [matchVar]
  rw [hA.2, hB.1, hB.2, hC.2]
  simp [hA.1, hC.1, varTok]

theorem varPass_append_prefix (data : List (List Char × List Char)) (fp : List Char)
    {pre : List Char} (s : List Char) (hpre : lbrace ∉ pre) :
    varPass data fp (pre ++ s) = pre ++ varPass data fp s := by
  induction pre with
  | nil => simp
  | cons c cs ih =>
    have hc : c ≠ lbrace := fun h => hpre (h ▸ List.mem_cons_self _ _)
    rw [List.cons_append, varPass_cons_none data fp (matchVar_none_of_head hc),
      ih (fun h => hpre (List.mem_cons_of_mem _ h))]
    simp

theorem varPass_token (data : List (List Char × List Char)) (fp : List Char)
    {ws1 key ws2 : List Char} (post : List Char)
    (hw1 : ∀ c ∈ ws1, jsSpace c = true) (hk : key ≠ [])
    (hkw : ∀ c ∈ key, wordChar c = true) (hw2 : ∀ c ∈ ws2, jsSpace c = true) :
    varPass data fp (varTok ws1 key ws2 ++ post) =
      replV data fp (varTok ws1 key ws2) key ++ varPass data fp post := by
  have hm := matchVar_parse post hw1 hk hkw hw2
  have htok : varTok ws1 key ws2 ++ post =
      lbrace :: (lbrace :: (ws1 ++ key ++ ws2 ++ [rbrace, rbrace]) ++ post) := by
    simp [varTok]
  rw [htok] at hm ⊢
  exact varPass_cons_match data fp hm

/-- Body scanner for `/\[\[(.*?)\]\]/`: looks for the first `]]`, where each
body character must match `.` (no line terminators).  Returns the captured
body and the remainder after the closing `]]`. -/
def selBody : List Char → Option (List Char × List Char)
  | [] => none
  | c :: cs =>
    if c = ']' ∧ cs.head? = some ']' then some ([], cs.tail)
    else if jsDot c then
      match selBody cs with
      | some (b, r) => some (c :: b, r)
      | none => none
    else none

theorem selBody_length {l b r : List Char} (h : selBody l = some (b, r)) :
    r.length + 2 ≤ l.length := by
  induction l generalizing b r with
  | nil => simp [selBody] at h
  | cons c cs ih =>
    simp only [selBody] at h
    split at h
    · rename_i hcl
      simp only [Option.some.injEq, Prod.mk.injEq] at h
      obtain ⟨_, hr⟩ := h
      subst hr
      cases cs with
      | nil => simp at hcl
      | cons d t =>
        simp only [List.head?_cons, Option.some.injEq] at hcl
        simp [List.length_cons]
    · split at h
      · cases hs : selBody cs with
        | none => rw [hs] at h; simp at h
        | some p =>
          obtain ⟨b0, r0⟩ := p
          rw [hs] at h
          simp only [Option.some.injEq, Prod.mk.injEq] at h
          obtain ⟨_, hr⟩ := h
          subst hr
          have := ih hs
          simp only [List.length_cons]
          omega
      · simp at h

/-- Adjacent `]]` occurs somewhere in the list. -/
def hasDoubleClose : List Char → Bool
  | a :: b :: t => (a = ']' && b = ']') || hasDoubleClose (b :: t)
  | _ => false

theorem selBody_parse {body : List Char} (post : List Char)
    (hd : ∀ c ∈ body, jsDot c = true) (hdc : hasDoubleClose body = false)
    (hlast : body.getLast? ≠ some ']') :
    selBody (body ++ ']' :: ']' :: post) = some (body, post) := by
  induction body with
  | nil => simp [selBody]
  | cons x xs ih =>
    have hx : jsDot x = true := hd x (List.mem_cons_self _ _)
    have hcond : ¬(x = ']' ∧ (xs ++ ']' :: ']' :: post).head? = some ']') := by
      cases xs with
      | nil =>
        intro hc
        exact hlast (by simp [hc.1])
      | cons y ys =>
        intro hc
        simp only [List.cons_append, List.head?_cons, Option.some.injEq] at hc
        simp only [hasDoubleClose, Bool.or_eq_false_iff, Bool.and_eq_false_iff] at hdc
        rcases hdc.1 with h | h <;> simp [hc.1, hc.2] at h
    have hrec : selBody (xs ++ ']' :: ']' :: post) = some (xs, post) := by
      apply ih (fun c hc => hd c (List.mem_cons_of_mem _ hc))
      · cases xs with
        | nil => rfl
        | cons y ys =>
          simp only [hasDoubleClose, Bool.or_eq_false_iff] at hdc
          exact hdc.2
      · cases xs with
        | nil => simp
        | cons y ys =>
          intro hcon
          exact hlast (by simpa using hcon)
    simp only [List.cons_append, selBody, List.append_eq, hx, if_true]
    rw [if_neg hcond, hrec]

/-- `options.split('|').map(s => s.trim())` for one alternative: JavaScript
`String.prototype.trim`. -/
def trimJS (l : List Char) : List Char :=
  ((l.dropWhile jsSpace).reverse.dropWhile jsSpace).reverse

/-- The trimmed non-empty alternatives of one `[[ ... ]]` body:
`options.split('|').map(s => s.trim()).filter(s => s.length > 0)`. -/
def choicesOf (body : List Char) : List (List Char) :=
  ((body.splitOn '|').map trimJS).filter (fun s => !s.isEmpty)

/-- The text matched by `/\[\[(.*?)\]\]/` with captured body `body`. -/
def selTok (body : List Char) : List Char :=
  '[' :: '[' :: (body ++ [']', ']'])

/-- Fueled random-selection scanner.  `rng n` is the `n`-th draw of the
process-wide random source; `Math.floor(Math.random() * len)` is modelled as
`rng k % len`, an arbitrary in-range index. -/
def selPassF (rng : Nat → Nat) : Nat → Nat → List Char → List Char × Nat
  | 0, k, _ => ([], k)
  | _ + 1, k, [] => ([], k)
  | n + 1, k, c :: cs =>
    if c = '[' ∧ cs.head? = some '[' then
      match selBody cs.tail with
      | some (b, rest) =>
        if (choicesOf b).isEmpty then
          let r := selPassF rng n k rest
          (selTok b ++ r.1, r.2)
        else
          let r := selPassF rng n (k + 1) rest
          ((choicesOf b).getD (rng k % (choicesOf b).length) [] ++ r.1, r.2)
      | none =>
        let r := selPassF rng n k cs
        (c :: r.1, r.2)
    else
      let r := selPassF rng n k cs
      (c :: r.1, r.2)

/-- The random-selection pass of `processTemplate`:
`content.replace(/\[\[(.*?)\]\]/g, cb)`, threading the index into the
random source. -/
def selPass (rng : Nat → Nat) (k : Nat) (l : List Char) : List Char × Nat :=
  selPassF rng l.length k l

theorem selPassF_fuel (rng : Nat → Nat) :
    ∀ n m k l, l.length ≤ n → l.length ≤ m →
      selPassF rng n k l = selPassF rng m k l := by
  intro n
  induction n with
  | zero =>
    intro m k l hn _
    have : l = [] := List.length_eq_zero.mp (Nat.le_zero.mp hn)
    subst this
    cases m <;> rfl
  | succ n ih =>
    intro m k l hn hm
    match l with
    | [] => cases m <;> rfl
    | c :: cs =>
      match m with
      | 0 => simp at hm
      | m + 1 =>
        simp only [List.length_cons] at hn hm
        simp only [selPassF]
        split
        · rename_i hc
          cases hs : selBody cs.tail with
          | some p =>
            obtain ⟨b, rest⟩ := p
            have hlen : rest.length + 2 ≤ cs.tail.length := selBody_length hs
            have htl : cs.tail.length ≤ cs.length := by
              cases cs <;> simp
            dsimp only
            split
            · rw [ih m k rest (by omega) (by omega)]
            · rw [ih m (k + 1) rest (by omega) (by omega)]
          | none =>
            dsimp only
            rw [ih m k cs (by omega) (by omega)]
        · rw [ih m k cs (by omega) (by omega)]

theorem selPass_nil (rng : Nat → Nat) (k : Nat) : selPass rng k [] = ([], k) := rfl

theorem selPass_cons_notOpen (rng : Nat → Nat) (k : Nat) {c : Char} {cs : List Char}
    (h : ¬(c = '[' ∧ cs.head? = some '[')) :
    selPass rng k (c :: cs) = (c :: (selPass rng k cs).1, (selPass rng k cs).2) := by
  simp only [selPass, List.length_cons, selPassF, if_neg h]

theorem selPass_cons_noBody (rng : Nat → Nat) (k : Nat) {c : Char} {cs : List Char}
    (h1 : c = '[' ∧ cs.head? = some '[') (h2 : selBody cs.tail = none) :
    selPass rng k (c :: cs) = (c :: (selPass rng k cs).1, (selPass rng k cs).2) := by
  simp only [selPass, List.length_cons, selPassF, if_pos h1, h2]

theorem selPass_cons_body (rng : Nat → Nat) (k : Nat) {c : Char} {s b r : List Char}
    (h1 : c = '[' ∧ s.head? = some '[') (h2 : selBody s.tail = some (b, r)) :
    selPass rng k (c :: s) =
      if (choicesOf b).isEmpty then
        (selTok b ++ (selPass rng k r).1, (selPass rng k r).2)
      else
        ((choicesOf b).getD (rng k % (choicesOf b).length) [] ++ (selPass rng (k + 1) r).1,
          (selPass rng (k + 1) r).2) := by
  have hlen : r.length + 2 ≤ s.tail.length := selBody_length h2
  have htl : s.tail.length ≤ s.length := by cases s <;> simp
  simp only [selPass, List.length_cons, selPassF, if_pos h1, h2]
  rw [selPassF_fuel rng s.length r.length k r (by omega) le_rfl,
    selPassF_fuel rng s.length r.length (k + 1) r (by omega) le_rfl]

theorem selPass_append_prefix (rng : Nat → Nat) (k : Nat) {pre : List Char} (s : List Char)
    (hpre : '[' ∉ pre) :
    selPass rng k (pre ++ s) = (pre ++ (selPass rng k s).1, (selPass rng k s).2) := by
  induction pre with
  | nil => simp
  | cons c cs ih =>
    have hc : ¬(c = '[' ∧ (cs ++ s).head? = some '[') := by
      intro hcc
      exact hpre (hcc.1 ▸ List.mem_cons_self _ _)
    rw [List.cons_append, selPass_cons_notOpen rng k hc,
      ih (fun h => hpre (List.mem_cons_of_mem _ h))]
    simp

theorem selPass_span (rng : Nat → Nat) (k : Nat) {body : List Char} (post : List Char)
    (hd : ∀ c ∈ body, jsDot c = true) (hdc : hasDoubleClose body = false)
    (hlast : body.getLast? ≠ some ']') :
    selPass rng k (selTok body ++ post) =
      if (choicesOf body).isEmpty then
        (selTok body ++ (selPass rng k post).1, (selPass rng k post).2)
      else
        ((choicesOf body).getD (rng k % (choicesOf body).length) [] ++
            (selPass rng (k + 1) post).1,
          (selPass rng (k + 1) post).2) := by
  have htok : selTok body ++ post = '[' :: ('[' :: (body ++ ']' :: ']' :: post)) := by
    simp [selTok]
  rw [htok]
  rw [selPass_cons_body rng k (c := '[') (s := '[' :: (body ++ ']' :: ']' :: post))
    ⟨rfl, rfl⟩ (by simpa using selBody_parse post hd hdc hlast)]

/-- `processTemplate` with explicit random-source threading: the variable pass
followed by the random-selection pass, starting at draw index `k`. -/
def processTemplateK (rng : Nat → Nat) (k : Nat) (content : List Char)
    (data : List (List Char × List Char)) (fp : List Char) : List Char × Nat :=
  selPass rng k (varPass data fp content)

/-- `processTemplate(content, data, filePath)` from
`src/generator/templateProcessor.js`: the variable-substitution pass, then the
random-selection pass over its full output. -/
def processTemplate (rng : Nat → Nat) (content : List Char)
    (data : List (List Char × List Char)) (fp : List Char) : List Char :=
  (processTemplateK rng 0 content data fp).1

theorem rep_append (t : Char) (r a b : List Char) :
    rep t r (a ++ b) = rep t r a ++ rep t r b := by
  induction a with
  | nil => rfl
  | cons c cs ih => simp [rep, ih]

theorem escapeForJS_cons (c : Char) (cs : List Char) :
    escapeForJS (c :: cs) =
      (if c = squote then [bslash, squote]
       else if c = dquote then [bslash, dquote]
       else if c = '\n' then [bslash, 'n']
       else if c = '\r' then [bslash, 'r']
       else [c]) ++ escapeForJS cs := by
  by_cases h1 : c = squote
  · subst h1; simp +decide [escapeForJS, rep, rep_append]
  · by_cases h2 : c = dquote
    · subst h2; simp +decide [escapeForJS, rep, rep_append, h1]
    · by_cases h3 : c = '\n'
      · subst h3; simp +decide [escapeForJS, rep, rep_append, h1, h2]
      · by_cases h4 : c = '\r'
        · subst h4; simp +decide [escapeForJS, rep, rep_append, h1, h2, h3]
        · simp [escapeForJS, rep, rep_append, h1, h2, h3, h4]

theorem escapeForJS_eq_escSpec (l : List Char) : escapeForJS l = escSpec l := by
  induction l with
  | nil => rfl
  | cons c cs ih => rw [escapeForJS_cons, escSpec, ih]

/-- A directory tree: the file system below one root. -/
inductive Entry where
  | file (name : String) (content : List Char)
  | dir (name : String) (children : List Entry)

/-- The fixed exclusion set of the directory walker in `getAllFiles`:
`['node_modules', 'build', 'dist', '.git']`. -/
def excludedDirs : List String := ["node_modules", "build", "dist", ".git"]

/-- `path.extname(name)` for a bare file name: the suffix from the last dot;
empty when there is no dot or the only dot is the leading character. -/
def extname (name : String) : String :=
  let l := name.data
  if l = ['.'] ∨ l = ['.', '.'] then "" else
  let rts := l.reverse.takeWhile (fun c => !(c = '.'))
  if rts.length = l.length then ""
  else if rts.length + 1 = l.length then ""
  else String.mk ('.' :: rts.reverse)

/-- The default extension set of `getAllFiles` and `processDirectory`. -/
def defaultExts : List String := [".js", ".jsx", ".ts", ".tsx", ".html", ".json"]

/-- `getAllFiles` from `src/generator/templateProcessor.js`: depth-first
enumeration of the files whose extension is in `exts`, pruning any directory
whose name is in `excludedDirs`.  Paths are lists of name components below
the traversal root. -/
def getAllFiles (exts : List String) (l : List Entry) : List (List String) :=
  match l with
  | [] => []
  | .file n _ :: rest =>
    (if extname n ∈ exts then [[n]] else []) ++ getAllFiles exts rest
  | .dir n ch :: rest =>
    (if n ∈ excludedDirs then [] else (getAllFiles exts ch).map (fun p => n :: p)) ++
      getAllFiles exts rest

/-- The same traversal also carrying each enumerated file's content (the
`fs.readFile` of `processFile`). -/
def getAllFilesC (exts : List String) (l : List Entry) : List (List String × List Char) :=
  match l with
  | [] => []
  | .file n c :: rest =>
    (if extname n ∈ exts then [([n], c)] else []) ++ getAllFilesC exts rest
  | .dir n ch :: rest =>
    (if n ∈ excludedDirs then []
     else (getAllFilesC exts ch).map (fun q => (n :: q.1, q.2))) ++
      getAllFilesC exts rest

/-- Join path components with `/`. -/
def joinPath : List String → List Char
  | [] => []
  | [s] => s.data
  | s :: rest => s.data ++ '/' :: joinPath rest

/-- Rewrites of `processDirectory`, in traversal order: each enumerated file's
content is put through `processTemplate` (with the file path as escaping
context), threading the global random source across files. -/
def processFiles (rng : Nat → Nat) (data : List (List Char × List Char)) :
    Nat → List (List String × List Char) → List (List String × List Char) × Nat
  | k, [] => ([], k)
  | k, (p, c) :: rest =>
    let o := processTemplateK rng k c data (joinPath p)
    let w := processFiles rng data o.2 rest
    ((p, o.1) :: w.1, w.2)

/-- `processDirectory(dirPath, data, extensions)` from
`src/generator/templateProcessor.js`: enumerates the files, rewrites each in
place, and resolves with no value (the function has no return statement), so
its result value is `none`. -/
def processDirectory (rng : Nat → Nat) (data : List (List Char × List Char))
    (exts : List String) (entries : List Entry) :
    (List (List String × List Char)) × Option Nat :=
  ((processFiles rng data 0 (getAllFilesC exts entries)).1, none)

/-- `s.startsWith(pat)` on JavaScript strings. -/
def jsStartsWith (s pat : String) : Bool := pat.data.isPrefixOf s.data

/-- The `fs.copy` filter of `buildWebsite`: keep an entry unless its
template-relative path starts with `node_modules`, `build` or `.git`. -/
def keepRel (rel : List String) : Bool :=
  let s := String.mk (joinPath rel)
  !(jsStartsWith s "node_modules") && !(jsStartsWith s "build") && !(jsStartsWith s ".git")

/-- `fs.copy(templatePath, websitePath, { filter })`: each entry is kept only
if the filter accepts its relative path; a rejected directory is not
descended into. -/
def copyFiltered (relPrefix : List String) (l : List Entry) : List Entry :=
  match l with
  | [] => []
  | .file n c :: rest =>
    (if keepRel (relPrefix ++ [n]) then [Entry.file n c] else []) ++
      copyFiltered relPrefix rest
  | .dir n ch :: rest =>
    (if keepRel (relPrefix ++ [n]) then [Entry.dir n (copyFiltered (relPrefix ++ [n]) ch)]
     else []) ++ copyFiltered relPrefix rest

/-- All file paths of a tree, unfiltered. -/
def pathsOf (l : List Entry) : List (List String) :=
  match l with
  | [] => []
  | .file n _ :: rest => [n] :: pathsOf rest
  | .dir n ch :: rest => (pathsOf ch).map (fun p => n :: p) ++ pathsOf rest

/-- The copy filter's decision as determined by the top-level name alone. -/
def keepTop (t : String) : Bool :=
  !(jsStartsWith t "node_modules") && !(jsStartsWith t "build") && !(jsStartsWith t ".git")

/-- The filter decision for a whole path: the top-level component decides. -/
def topKeep : List String → Bool
  | [] => true
  | t :: _ => keepTop t

/-- Every nonempty prefix of the path passes the copy filter (relative to
`rel`); this is exactly when `copyFiltered` retains the file. -/
def prefixesKeep (rel : List String) : List String → Bool
  | [] => true
  | n :: rest => keepRel (rel ++ [n]) && prefixesKeep (rel ++ [n]) rest

theorem isPrefixOf_append_slash {pat : List Char} (t r : List Char) (h : '/' ∉ pat) :
    pat.isPrefixOf (t ++ '/' :: r) = pat.isPrefixOf t := by
  induction pat generalizing t with
  | nil => simp [List.isPrefixOf]
  | cons p ps ih =>
    have hp : p ≠ '/' := fun hh => h (hh ▸ List.mem_cons_self _ _)
    cases t with
    | nil => simp [List.isPrefixOf, hp]
    | cons a t' =>
      simp [List.isPrefixOf, ih t' (fun hm => h (List.mem_cons_of_mem _ hm))]

theorem keepRel_cons (n : String) (rest : List String) :
    keepRel (n :: rest) = keepTop n := by
  cases rest with
  | nil => rfl
  | cons r more =>
    have hjoin : joinPath (n :: r :: more) = n.data ++ '/' :: joinPath (r :: more) := rfl
    simp only [keepRel, keepTop, jsStartsWith, hjoin]
    rw [isPrefixOf_append_slash _ _ (by decide),
      isPrefixOf_append_slash _ _ (by decide),
      isPrefixOf_append_slash _ _ (by decide)]

theorem prefixesKeep_nested (n : String) (rel' p : List String) :
    prefixesKeep (n :: rel') p = (p.isEmpty || keepTop n) := by
  induction p generalizing rel' with
  | nil => rfl
  | cons m rest ih =>
    simp only [prefixesKeep, List.cons_append, keepRel_cons]
    rw [ih (rel' ++ [m])]
    cases keepTop n <;> simp

theorem prefixesKeep_nil (p : List String) : prefixesKeep [] p = topKeep p := by
  cases p with
  | nil => rfl
  | cons n rest =>
    simp only [prefixesKeep, topKeep, List.nil_append]
    have h1 : keepRel [n] = keepTop n := keepRel_cons n []
    rw [h1, prefixesKeep_nested n [] rest]
    cases keepTop n <;> simp

theorem pathsOf_copyFiltered (rel : List String) (l : List Entry) :
    pathsOf (copyFiltered rel l) = (pathsOf l).filter (prefixesKeep rel) := by
  induction rel, l using copyFiltered.induct with
  | case1 rel => simp [copyFiltered, pathsOf]
  | case2 rel n c rest ih =>
    simp only [copyFiltered, pathsOf]
    by_cases hk : keepRel (rel ++ [n])
    · simp only [if_pos hk, List.singleton_append, pathsOf, ih, List.filter_cons]
      have hpk : prefixesKeep rel [n] = true := by
        simp [prefixesKeep, hk]
      rw [hpk]
      simp
    · simp only [if_neg hk, List.nil_append, ih, List.filter_cons]
      have hpk : prefixesKeep rel [n] = false := by
        simp only [prefixesKeep, Bool.and_eq_false_iff]
        left
        simpa using hk
      rw [hpk]
      simp
  | case3 rel n ch rest ih1 ih2 =>
    simp only [copyFiltered, pathsOf]
    by_cases hk : keepRel (rel ++ [n])
    · simp only [if_pos hk, List.singleton_append, pathsOf, ih1, ih2, List.filter_append]
      congr 1
      rw [List.filter_map]
      congr 1
      apply List.filter_congr
      intro p _
      simp [Function.comp_apply, prefixesKeep, hk]
    · simp only [if_neg hk, List.nil_append, ih2, List.filter_append]
      have : ∀ p, prefixesKeep rel (n :: p) = false := by
        intro p
        simp only [prefixesKeep, Bool.and_eq_false_iff]
        left
        simpa using hk
      rw [List.filter_map]
      have hz : (pathsOf ch).filter (prefixesKeep rel ∘ (fun p => n :: p)) = [] := by
        apply List.filter_eq_nil_iff.mpr
        intro p _
        simp [Function.comp_apply, this p]
      rw [hz]
      simp

theorem getAllFiles_not_excluded (exts : List String) (l : List Entry) :
    ∀ p ∈ getAllFiles exts l, ∀ d ∈ p.dropLast, d ∉ excludedDirs := by
  refine getAllFiles.induct exts
    (fun l => ∀ p ∈ getAllFiles exts l, ∀ d ∈ p.dropLast, d ∉ excludedDirs) ?_ ?_ ?_ l
  · intro p hp; simp [getAllFiles] at hp
  · intro n c rest ih
    intro p hp
    simp only [getAllFiles, List.mem_append] at hp
    rcases hp with hp | hp
    · split at hp
      · simp only [List.mem_singleton] at hp
        subst hp
        intro d hd
        simp at hd
      · simp at hp
    · exact ih p hp
  · intro n ch rest ih1 ih2
    intro p hp
    simp only [getAllFiles, List.mem_append] at hp
    rcases hp with hp | hp
    · by_cases hex : n ∈ excludedDirs
      · simp [hex] at hp
      · rw [if_neg hex] at hp
        simp only [List.mem_map] at hp
        obtain ⟨q, hq, hpq⟩ := hp
        subst hpq
        intro d hd
        cases q with
        | nil => simp at hd
        | cons q0 qs =>
          rw [List.dropLast_cons_of_ne_nil (by simp)] at hd
          rcases List.mem_cons.mp hd with hd | hd
          · subst hd; exact hex
          · exact ih1 (q0 :: qs) hq d hd
    · exact ih2 p hp

theorem getAllFilesC_fst (exts : List String) (l : List Entry) :
    (getAllFilesC exts l).map Prod.fst = getAllFiles exts l := by
  refine getAllFilesC.induct exts
    (fun l => (getAllFilesC exts l).map Prod.fst = getAllFiles exts l) ?_ ?_ ?_ l
  · simp [getAllFilesC, getAllFiles]
  · intro n c rest ih
    simp only [getAllFilesC, getAllFiles, List.map_append, ih]
    split <;> simp
  · intro n ch rest ih1 ih2
    simp only [getAllFilesC, getAllFiles, List.map_append, ih2]
    split <;> simp [← ih1, List.map_map, Function.comp]

theorem processFiles_fst (rng : Nat → Nat) (data : List (List Char × List Char)) :
    ∀ k files, (processFiles rng data k files).1.map Prod.fst = files.map Prod.fst := by
  intro k files
  induction files generalizing k with
  | nil => rfl
  | cons f rest ih =>
    obtain ⟨p, c⟩ := f
    simp only [processFiles, List.map_cons]
    rw [ih]

/-- The steps of one row's pipeline inside `buildWebsite`
(`src/generator/websiteBuilderFixed.js`): copy of the template, template
substitution, `package.json` rewrite, dependency install, build. -/
inductive Stage where
  | materialize
  | substitute
  | finalize
  | install
  | build
deriving DecidableEq, Repr

/-- The `package.json` fields touched by `buildWebsite`. -/
structure PkgJson where
  name : String
  homepage : String
deriving DecidableEq, Repr

/-- One CSV row: its `domain` plus the full field mapping. -/
structure Row where
  domain : String
  fields : List (List Char × List Char)

/-- ASCII `String.prototype.toLowerCase` on one character. -/
def jsToLower (c : Char) : Char :=
  if 65 ≤ c.toNat ∧ c.toNat ≤ 90 then Char.ofNat (c.toNat + 32) else c

/-- `domain.replace(/\./g, '-')`. -/
def dotsToDashes (s : String) : String :=
  String.mk (s.data.map (fun c => if c = '.' then '-' else c))

/-- `s.toLowerCase()`. -/
def toLowerJS (s : String) : String :=
  String.mk (s.data.map jsToLower)

/-- The package name written by `buildWebsite`:
`domain.replace(/\./g, '-').toLowerCase()`. -/
def packageNameOf (domain : String) : String :=
  toLowerJS (dotsToDashes domain)

/-- The homepage written by `buildWebsite`: ``https://${domain}``. -/
def homepageOf (domain : String) : String :=
  "https://" ++ domain

/-- The ordered stage list of one row's pipeline; the `package.json` rewrite
only happens when the manifest exists (`fs.pathExists`). -/
def stagesFor (manifestPresent : Bool) : List Stage :=
  [Stage.materialize, Stage.substitute] ++
    (if manifestPresent then [Stage.finalize] else []) ++
    [Stage.install, Stage.build]

/-- Run the stages in order against an environment that decides each awaited
step's outcome; returns the completed stages and the first error, if any.
A failing stage stops the pipeline immediately. -/
def runStages (env : Stage → Except String Unit) : List Stage → List Stage × Option String
  | [] => ([], none)
  | s :: rest =>
    match env s with
    | Except.ok _ =>
      let r := runStages env rest
      (s :: r.1, r.2)
    | Except.error m => ([], some m)

/-- The per-row result object of `buildWebsite`:
`{ domain, success: true, path }` or `{ domain, success: false, error }`. -/
structure BuildResult where
  domain : String
  success : Bool
  path : Option String
  error : Option String
deriving DecidableEq, Repr

/-- `buildWebsite(domain, data, templatePath, outputPath)`: runs the row's
pipeline inside one `try`, catching any step's failure and converting it into
a failed result; also reports the executed stages and the manifest content
written by the finalize step (when it ran). -/
def buildWebsite (env : String → Stage → Except String Unit)
    (manifest : String → Option PkgJson) (domain : String)
    (_data : List (List Char × List Char)) (_templatePath outputPath : String) :
    BuildResult × List Stage × Option PkgJson :=
  let websitePath := outputPath ++ "/" ++ domain
  let present := (manifest domain).isSome
  let r := runStages (env domain) (stagesFor present)
  let written : Option PkgJson :=
    if Stage.finalize ∈ r.1 then
      some { name := packageNameOf domain, homepage := homepageOf domain }
    else none
  match r.2 with
  | some e =>
    ({ domain := domain, success := false, path := none, error := some e }, r.1, written)
  | none =>
    ({ domain := domain, success := true, path := some websitePath, error := none }, r.1, written)

/-- `buildWebsitesSequential(websites, templatePath, outputPath)`: one
`buildWebsite` per row, in order, collecting each row's result. -/
def buildWebsitesSequential (env : String → Stage → Except String Unit)
    (manifest : String → Option PkgJson) (templatePath outputPath : String) :
    List Row → List BuildResult
  | [] => []
  | w :: ws =>
    (buildWebsite env manifest w.domain w.fields templatePath outputPath).1 ::
      buildWebsitesSequential env manifest templatePath outputPath ws

/-- C1: for every row-record and every text, the variable-substitution pass
replaces every double-brace token (bareword identifier with optional
whitespace inside the braces) whose identifier is a known field by the row's
string value for it (inserted literally in non-code-like contexts), and
leaves a token with an unknown identifier byte-for-byte unchanged; being a
pure function, emitting a warning is its only other effect.  Stated
compositionally: the scan handles the text before the token, the token, and
the rest of the text independently, so this applies to every occurrence. -/
theorem C1_var_substitution
    (data : List (List Char × List Char)) (fp pre ws1 key ws2 post : List Char)
    (hpre : lbrace ∉ pre)
    (hw1 : ∀ c ∈ ws1, jsSpace c = true) (hk : key ≠ [])
    (hkw : ∀ c ∈ key, wordChar c = true) (hw2 : ∀ c ∈ ws2, jsSpace c = true) :
    (∀ v, List.lookup key data = some v → jsLike fp = false →
        varPass data fp (pre ++ varTok ws1 key ws2 ++ post) =
          pre ++ v ++ varPass data fp post) ∧
    (List.lookup key data = none →
        varPass data fp (pre ++ varTok ws1 key ws2 ++ post) =
          pre ++ varTok ws1 key ws2 ++ varPass data fp post) := by
  constructor
  · intro v hv hfp
    rw [List.append_assoc, varPass_append_prefix data fp _ hpre,
      varPass_token data fp post hw1 hk hkw hw2]
    simp [replV, hv, hfp]
  · intro hv
    rw [List.append_assoc, varPass_append_prefix data fp _ hpre,
      varPass_token data fp post hw1 hk hkw hw2]
    simp [replV, hv]

/-- Witness for C1 at concrete inputs: a known field is substituted, an
unknown one is kept verbatim. -/
theorem C1_var_substitution_witness :
    varPass [("title".data, "A".data)] []
        ("Hello ".data ++ varTok [' '] "title".data [' '] ++ "!".data) =
      "Hello A!".data ∧
    varPass [("title".data, "A".data)] []
        ("Hi ".data ++ varTok [] "missing".data [] ++ "!".data) =
      "Hi ".data ++ varTok [] "missing".data [] ++ "!".data := by
  constructor
  · have h := (C1_var_substitution [("title".data, "A".data)] [] "Hello ".data
      [' '] "title".data [' '] "!".data (by decide) (by decide) (by decide)
      (by decide) (by decide)).1 "A".data (by decide) (by decide)
    rw [h]
    decide
  · have h := (C1_var_substitution [("title".data, "A".data)] [] "Hi ".data
      [] "missing".data [] "!".data (by decide) (by decide) (by decide)
      (by decide) (by decide)).2 (by decide)
    rw [h]
    decide

/-- Counterexample to C2: backslashes are not escaped by `escapeForJS` (a
lone backslash passes through unchanged, also when substituted into a `.js`
file), and a value substituted into a `.ts` file — a script-like extension —
is not escaped at all (a single quote stays raw). -/
theorem C2_counterexample :
    escapeForJS [bslash] = [bslash] ∧
    processTemplate (fun _ => 0) (varTok [] ['k'] []) [(['k'], [bslash])] ".js".data =
      [bslash] ∧
    processTemplate (fun _ => 0) (varTok [] ['k'] []) [(['k'], [squote])] ".ts".data =
      [squote] := by
  decide

/-- C2 (amended): only target files whose path ends in `.js` or `.jsx` are
code-like — `.ts`, `.tsx` and markup extensions are not, and receive the raw
value — and for code-like targets the inserted value is sanitized by
escaping single quotes, double quotes, newlines and carriage returns (each
such character becomes a backslash pair), while backslashes (and every other
character) pass through unchanged; substitution itself still occurs in both
cases.  `escSpec` is the per-character description of this escaping. -/
theorem C2_escaping_amended
    (data : List (List Char × List Char)) (fp pre ws1 key ws2 post v : List Char)
    (hpre : lbrace ∉ pre)
    (hw1 : ∀ c ∈ ws1, jsSpace c = true) (hk : key ≠ [])
    (hkw : ∀ c ∈ key, wordChar c = true) (hw2 : ∀ c ∈ ws2, jsSpace c = true)
    (hv : List.lookup key data = some v) :
    (jsLike fp = true →
      varPass data fp (pre ++ varTok ws1 key ws2 ++ post) =
        pre ++ escapeForJS v ++ varPass data fp post) ∧
    (jsLike fp = false →
      varPass data fp (pre ++ varTok ws1 key ws2 ++ post) =
        pre ++ v ++ varPass data fp post) ∧
    escapeForJS v = escSpec v ∧
    (∀ w, escapeForJS (bslash :: w) = bslash :: escapeForJS w) ∧
    jsLike "a.js".data = true ∧ jsLike "a.jsx".data = true ∧
    jsLike "a.ts".data = false ∧ jsLike "a.tsx".data = false ∧
    jsLike "a.html".data = false ∧ jsLike "a.json".data = false := by
  refine ⟨?_, ?_, escapeForJS_eq_escSpec v, ?_, by decide, by decide, by decide,
    by decide, by decide, by decide⟩
  · intro hfp
    rw [List.append_assoc, varPass_append_prefix data fp _ hpre,
      varPass_token data fp post hw1 hk hkw hw2]
    simp [replV, hv, hfp]
  · intro hfp
    rw [List.append_assoc, varPass_append_prefix data fp _ hpre,
      varPass_token data fp post hw1 hk hkw hw2]
    simp [replV, hv, hfp]
  · intro w
    rw [escapeForJS_cons]
    simp +decide

/-- Witness for the amended C2 at a concrete input: the value `\'` followed
by a newline, inserted into a `.js` file, arrives with the quote and newline
escaped and the backslash untouched, while the same value inserted into a
`.ts` file arrives raw. -/
theorem C2_escaping_amended_witness :
    varPass [(['k'], [bslash, squote, '\n'])] "a.js".data
        ("x = ".data ++ varTok [] ['k'] [] ++ ";".data) =
      "x = ".data ++ [bslash, bslash, squote, bslash, 'n'] ++ ";".data ∧
    varPass [(['k'], [bslash, squote, '\n'])] "a.ts".data
        ("x = ".data ++ varTok [] ['k'] [] ++ ";".data) =
      "x = ".data ++ [bslash, squote, '\n'] ++ ";".data ∧
    escapeForJS [bslash, squote, '\n'] = escSpec [bslash, squote, '\n'] := by
  have h1 := C2_escaping_amended [(['k'], [bslash, squote, '\n'])] "a.js".data
    "x = ".data [] ['k'] [] ";".data [bslash, squote, '\n']
    (by decide) (by decide) (by decide) (by decide) (by decide) (by decide)
  have h2 := C2_escaping_amended [(['k'], [bslash, squote, '\n'])] "a.ts".data
    "x = ".data [] ['k'] [] ";".data [bslash, squote, '\n']
    (by decide) (by decide) (by decide) (by decide) (by decide) (by decide)
  refine ⟨?_, ?_, h1.2.2.1⟩
  · rw [h1.1 (by decide)]
    decide
  · rw [h2.2.1 (by decide)]
    decide

/-- Counterexample to C3: a double-bracket span whose inner text contains a
newline has two non-empty trimmed alternatives, yet the random-selection pass
leaves the whole span unchanged instead of replacing it by one of them (the
matcher's `.` does not cross line terminators). -/
theorem C3_counterexample :
    (selPass (fun _ => 0) 0 (selTok ['a', '\n', '|', 'b'])).1 =
      selTok ['a', '\n', '|', 'b'] ∧
    choicesOf ['a', '\n', '|', 'b'] = [['a'], ['b']] ∧
    selTok ['a', '\n', '|', 'b'] ≠ ['a'] ∧
    selTok ['a', '\n', '|', 'b'] ≠ ['b'] := by
  decide

/-- C3 (amended): for spans whose inner text contains no line terminator
(and no earlier `]]`, the span being the shortest match), a span with at
least one non-empty trimmed `|`-alternative is replaced by exactly one of
those alternatives, and a span with zero non-empty alternatives is left
unchanged verbatim; the pure scanner continues after the span either way
(a warning is the only other effect in the zero case). -/
theorem C3_selection_amended (rng : Nat → Nat) (k : Nat) (pre body post : List Char)
    (hpre : '[' ∉ pre) (hd : ∀ c ∈ body, jsDot c = true)
    (hdc : hasDoubleClose body = false) (hlast : body.getLast? ≠ some ']') :
    ((choicesOf body).isEmpty = true →
      (selPass rng k (pre ++ selTok body ++ post)).1 =
        pre ++ selTok body ++ (selPass rng k post).1) ∧
    ((choicesOf body).isEmpty = false →
      ∃ c ∈ choicesOf body,
        (selPass rng k (pre ++ selTok body ++ post)).1 =
          pre ++ c ++ (selPass rng (k + 1) post).1) := by
  have hspan := selPass_span rng k post hd hdc hlast
  constructor
  · intro hempty
    rw [List.append_assoc, selPass_append_prefix rng k _ hpre, hspan, if_pos hempty]
    simp
  · intro hne
    have hlen : 0 < (choicesOf body).length := by
      cases hc : choicesOf body with
      | nil => rw [hc] at hne; simp at hne
      | cons a t => simp [hc]
    have hidx : rng k % (choicesOf body).length < (choicesOf body).length :=
      Nat.mod_lt _ hlen
    refine ⟨(choicesOf body).getD (rng k % (choicesOf body).length) [], ?_, ?_⟩
    · rw [List.getD_eq_getElem _ _ hidx]
      exact List.getElem_mem _
    · rw [List.append_assoc, selPass_append_prefix rng k _ hpre, hspan, if_neg (by simp [hne])]
      simp

/-- Witness for the amended C3 at concrete inputs: a `[[Hi|Yo]]` span is
replaced by one of its alternatives, and a `[[ | ]]` span with only empty
alternatives is kept verbatim. -/
theorem C3_selection_amended_witness :
    ((choicesOf [' ', '|', ' ']).isEmpty = true ∧
      (selPass (fun _ => 0) 0 ("a ".data ++ selTok [' ', '|', ' '] ++ "!".data)).1 =
        "a ".data ++ selTok [' ', '|', ' '] ++ "!".data) ∧
    ((choicesOf "Hi|Yo".data).isEmpty = false ∧
      ∃ c ∈ choicesOf "Hi|Yo".data,
        (selPass (fun _ => 0) 0 ("a ".data ++ selTok "Hi|Yo".data ++ "!".data)).1 =
          "a ".data ++ c ++ "!".data) := by
  constructor
  · refine ⟨by decide, ?_⟩
    have h := (C3_selection_amended (fun _ => 0) 0 "a ".data [' ', '|', ' '] "!".data
      (by decide) (by decide) (by decide) (by decide)).1 (by decide)
    rw [h]
    decide
  · refine ⟨by decide, ?_⟩
    obtain ⟨c, hc, hres⟩ := (C3_selection_amended (fun _ => 0) 0 "a ".data "Hi|Yo".data
      "!".data (by decide) (by decide) (by decide) (by decide)).2 (by decide)
    refine ⟨c, hc, ?_⟩
    have he : (selPass (fun _ => 0) (0 + 1) "!".data).1 = "!".data := by decide
    rw [hres, he]

/-- Counterexample to C4: for a known field whose value is itself the span
`[[x|y]]`, the variable pass does insert the value verbatim, but the
random-selection pass then runs over the whole substituted text, so the
final output is `x` — the inserted value does not appear verbatim in the
final output. -/
theorem C4_counterexample :
    processTemplate (fun _ => 0) (varTok [] ['k'] []) [(['k'], selTok ['x', '|', 'y'])] [] =
      ['x'] ∧
    varPass [(['k'], selTok ['x', '|', 'y'])] [] (varTok [] ['k'] []) =
      selTok ['x', '|', 'y'] ∧
    (['x'] : List Char) ≠ selTok ['x', '|', 'y'] := by
  decide

/-- C4 (amended): within one pass, text produced by a replacement is never
re-scanned by that same pass — after substituting a token (or resolving a
span) the scanner continues with the remainder of the original text only, so
the emitted replacement appears verbatim in that pass's output.  Across
passes there is no such guarantee: the random-selection pass scans the entire
output of the variable pass (see the counterexample). -/
theorem C4_no_rescan_amended (data : List (List Char × List Char))
    (rng : Nat → Nat) (fp : List Char) (k : Nat) :
    (∀ ws1 key ws2 post, (∀ c ∈ ws1, jsSpace c = true) → key ≠ [] →
      (∀ c ∈ key, wordChar c = true) → (∀ c ∈ ws2, jsSpace c = true) →
      varPass data fp (varTok ws1 key ws2 ++ post) =
        replV data fp (varTok ws1 key ws2) key ++ varPass data fp post) ∧
    (∀ body post, (∀ c ∈ body, jsDot c = true) → hasDoubleClose body = false →
      body.getLast? ≠ some ']' → (choicesOf body).isEmpty = false →
      (selPass rng k (selTok body ++ post)).1 =
        (choicesOf body).getD (rng k % (choicesOf body).length) [] ++
          (selPass rng (k + 1) post).1) := by
  constructor
  · intro ws1 key ws2 post hw1 hk hkw hw2
    exact varPass_token data fp post hw1 hk hkw hw2
  · intro body post hd hdc hlast hne
    rw [selPass_span rng k post hd hdc hlast, if_neg (by simp [hne])]

/-- Witness for the amended C4 at concrete inputs: the variable pass inserts
a value containing a span verbatim, and the selection pass continues after a
resolved span without re-scanning the chosen alternative. -/
theorem C4_no_rescan_amended_witness :
    varPass [(['k'], selTok ['x', '|', 'y'])] [] (varTok [] ['k'] [] ++ "z".data) =
      selTok ['x', '|', 'y'] ++ "z".data ∧
    (selPass (fun _ => 0) 0 (selTok "Hi|Yo".data ++ "z".data)).1 = "Hi".data ++ "z".data := by
  constructor
  · have h := (C4_no_rescan_amended [(['k'], selTok ['x', '|', 'y'])] (fun _ => 0) [] 0).1
      [] ['k'] [] "z".data (by decide) (by decide) (by decide) (by decide)
    rw [h]
    decide
  · have h := (C4_no_rescan_amended [] (fun _ => 0) [] 0).2 "Hi|Yo".data "z".data
      (by decide) (by decide) (by decide) (by decide)
    rw [h]
    decide

/-- C5: the directory walker never visits or modifies a file inside a
directory whose name is in the fixed exclusion set, at any nesting depth:
every enumerated path has no excluded name among its directory components,
and `processDirectory` rewrites exactly the enumerated files. -/
theorem C5_walker_excludes (exts : List String) (l : List Entry)
    (rng : Nat → Nat) (data : List (List Char × List Char)) :
    (∀ p ∈ getAllFiles exts l, ∀ d ∈ p.dropLast, d ∉ excludedDirs) ∧
    (∀ q ∈ (processDirectory rng data exts l).1, q.1 ∈ getAllFiles exts l) := by
  refine ⟨getAllFiles_not_excluded exts l, ?_⟩
  intro q hq
  have hm : q.1 ∈ (processFiles rng data 0 (getAllFilesC exts l)).1.map Prod.fst :=
    List.mem_map_of_mem _ hq
  rwa [processFiles_fst, getAllFilesC_fst] at hm

/-- Witness for C5 at a concrete tree: a `.js` file inside a nested
`node_modules` is not enumerated, the sibling file outside it is, and the
enumerated path goes through no excluded directory. -/
theorem C5_walker_excludes_witness :
    getAllFiles defaultExts
        [Entry.dir "a" [Entry.dir "node_modules" [Entry.file "x.js" []],
          Entry.file "y.js" []]] = [["a", "y.js"]] ∧
    ∀ d ∈ (["a", "y.js"] : List String).dropLast, d ∉ excludedDirs := by
  have heval : getAllFiles defaultExts
      [Entry.dir "a" [Entry.dir "node_modules" [Entry.file "x.js" []],
        Entry.file "y.js" []]] = [["a", "y.js"]] := by
    simp +decide [getAllFiles, extname, defaultExts, excludedDirs]
  refine ⟨heval, ?_⟩
  exact (C5_walker_excludes defaultExts
    [Entry.dir "a" [Entry.dir "node_modules" [Entry.file "x.js" []], Entry.file "y.js" []]]
    (fun _ => 0) []).1 ["a", "y.js"] (by rw [heval]; exact List.mem_singleton.mpr rfl)

/-- Counterexample to C6: the copy filter works by string-prefix matching on
the template-relative path, so a `node_modules` directory nested below a kept
top-level directory is copied, and a top-level `dist` directory is copied as
well — both contrary to the walker's exclusion semantics claimed for the
materializer. -/
theorem C6_counterexample :
    pathsOf (copyFiltered []
        [Entry.dir "src" [Entry.dir "node_modules" [Entry.file "evil.js" []]],
         Entry.dir "dist" [Entry.file "d.js" []]]) =
      [["src", "node_modules", "evil.js"], ["dist", "d.js"]] := by
  simp +decide [copyFiltered, pathsOf, keepRel, joinPath, jsStartsWith]

/-- C6 (amended): the materializer's copy keeps a file exactly when it is in
the template and its top-level path component does not start (string-prefix)
with `node_modules`, `build` or `.git`; exclusion applies only at the top
level of the copy, and `dist` is not excluded. -/
theorem C6_copy_amended (l : List Entry) (p : List String) :
    p ∈ pathsOf (copyFiltered [] l) ↔ p ∈ pathsOf l ∧ topKeep p = true := by
  rw [pathsOf_copyFiltered]
  rw [List.filter_congr (fun q _ => prefixesKeep_nil q)]
  exact List.mem_filter

/-- Witness for the amended C6 at a concrete tree: the nested
`node_modules` file is kept because its top-level component is `src`. -/
theorem C6_copy_amended_witness :
    ["src", "node_modules", "evil.js"] ∈ pathsOf (copyFiltered []
      [Entry.dir "src" [Entry.dir "node_modules" [Entry.file "evil.js" []]]]) := by
  apply (C6_copy_amended
    [Entry.dir "src" [Entry.dir "node_modules" [Entry.file "evil.js" []]]]
    ["src", "node_modules", "evil.js"]).mpr
  constructor
  · simp [pathsOf]
  · decide

/-- Counterexample to C9: `processDirectory` has no return statement, so its
resolved value is `undefined` (modelled `none`), not the number of processed
files — here a tree with two matching files. -/
theorem C9_counterexample :
    (processDirectory (fun _ => 0) [] defaultExts
        [Entry.file "a.js" [], Entry.file "b.html" []]).2 = none ∧
    (getAllFiles defaultExts [Entry.file "a.js" [], Entry.file "b.html" []]).length = 2 := by
  constructor
  · rfl
  · simp +decide [getAllFiles, extname, defaultExts]

/-- C9 (amended): `processDirectory(root, row, extensions)` rewrites in place
exactly the files enumerated by the walker — those under the root whose
extension is in the set, excluded directories pruned — passing each through
the substitution engine; it logs their count but returns no value. -/
theorem C9_processDirectory_amended (rng : Nat → Nat)
    (data : List (List Char × List Char)) (exts : List String) (entries : List Entry) :
    (processDirectory rng data exts entries).2 = none ∧
    (processDirectory rng data exts entries).1.map Prod.fst = getAllFiles exts entries := by
  refine ⟨rfl, ?_⟩
  rw [show (processDirectory rng data exts entries).1 =
    (processFiles rng data 0 (getAllFilesC exts entries)).1 from rfl]
  rw [processFiles_fst, getAllFilesC_fst]

/-- C10: the materializer's copy filter decides inclusion by string-prefix
matching on the template-relative path, which is determined by the top-level
component alone: top-level entries whose names merely start with
`node_modules`, `build` or `.git` — including `builder.js`, `build-tools`
and `.gitignore` — are omitted, `dist` is kept, and entries below any other
top-level directory are copied regardless of nested directory names. -/
theorem C10_copy_filter_by_top_level (l : List Entry) :
    pathsOf (copyFiltered [] l) = (pathsOf l).filter topKeep ∧
    keepTop "builder.js" = false ∧
    keepTop "build-tools" = false ∧
    keepTop ".gitignore" = false ∧
    keepTop "dist" = true ∧
    topKeep ["src", "node_modules", "x.js"] = true ∧
    topKeep ["src", ".git", "config"] = true := by
  refine ⟨?_, by decide, by decide, by decide, by decide, by decide, by decide⟩
  rw [pathsOf_copyFiltered]
  exact List.filter_congr (fun q _ => prefixesKeep_nil q)

theorem runStages_subset (env0 : Stage → Except String Unit) :
    ∀ L, ∀ x ∈ (runStages env0 L).1, x ∈ L := by
  intro L
  induction L with
  | nil => intro x hx; simp [runStages] at hx
  | cons s rest ih =>
    intro x hx
    simp only [runStages] at hx
    cases hs : env0 s with
    | ok u => 
      rw [hs] at hx
      simp only at hx
      rcases List.mem_cons.mp hx with hx | hx
      · exact hx ▸ List.mem_cons_self _ _
      · exact List.mem_cons_of_mem _ (ih x hx)
    | error m => rw [hs] at hx; simp at hx

theorem runStages_ok (env0 : Stage → Except String Unit) :
    ∀ L, (∀ s ∈ L, env0 s = Except.ok ()) → runStages env0 L = (L, none) := by
  intro L
  induction L with
  | nil => intro _; rfl
  | cons s rest ih =>
    intro h
    simp only [runStages, h s (List.mem_cons_self _ _),
      ih (fun x hx => h x (List.mem_cons_of_mem _ hx))]

theorem C7_failure_isolated
    (env : String → Stage → Except String Unit) (manifest : String → Option PkgJson)
    (tp op : String) (rows : List Row) :
    (buildWebsitesSequential env manifest tp op rows).length = rows.length ∧
    (∀ i : Nat, (buildWebsitesSequential env manifest tp op rows)[i]? =
      (rows[i]?).map (fun w => (buildWebsite env manifest w.domain w.fields tp op).1)) ∧
    (∀ w : Row, (buildWebsite env manifest w.domain w.fields tp op).1.success = false →
      ∃ e, (buildWebsite env manifest w.domain w.fields tp op).1 =
        { domain := w.domain, success := false, path := none, error := some e }) ∧
    (∀ w : Row, (∀ s, env w.domain s = Except.ok ()) →
      (buildWebsite env manifest w.domain w.fields tp op).1 =
        { domain := w.domain, success := true, path := some (op ++ "/" ++ w.domain),
          error := none }) := by
  refine ⟨?_, ?_, ?_, ?_⟩
  · induction rows with
    | nil => rfl
    | cons w ws ih => simp [buildWebsitesSequential, ih]
  · intro i
    induction rows generalizing i with
    | nil => simp [buildWebsitesSequential]
    | cons w ws ih =>
      cases i with
      | zero => simp [buildWebsitesSequential]
      | succ j => simpa [buildWebsitesSequential] using ih j
  · intro w h
    cases hr : (runStages (env w.domain) (stagesFor (manifest w.domain).isSome)).2 with
    | none =>
      exfalso
      simp only [buildWebsite, hr] at h
      exact Bool.noConfusion h
    | some e =>
      refine ⟨e, ?_⟩
      simp only [buildWebsite, hr]
  · intro w hok
    have h := runStages_ok (env w.domain) (stagesFor (manifest w.domain).isSome)
      (fun s _ => hok s)
    simp only [buildWebsite, h]

/-- Witness for C7 at a concrete run: with an environment that fails only the
install step of row `a.com`, the sequential orchestrator yields one result
per row, row `a.com` ends failed with its error captured, and row `b.com`
still succeeds. -/
theorem C7_failure_isolated_witness :
    ((buildWebsitesSequential
        (fun d s => if d = "a.com" ∧ s = Stage.install then Except.error "boom" else Except.ok ())
        (fun _ => none) "t" "o" [⟨"a.com", []⟩, ⟨"b.com", []⟩]).length = 2) ∧
    ((buildWebsite
        (fun d s => if d = "a.com" ∧ s = Stage.install then Except.error "boom" else Except.ok ())
        (fun _ => none) "b.com" [] "t" "o").1 =
      { domain := "b.com", success := true, path := some ("o" ++ "/" ++ "b.com"),
        error := none }) ∧
    (∃ e, (buildWebsite
        (fun d s => if d = "a.com" ∧ s = Stage.install then Except.error "boom" else Except.ok ())
        (fun _ => none) "a.com" [] "t" "o").1 =
      { domain := "a.com", success := false, path := none, error := some e }) := by
  have h := C7_failure_isolated
    (fun d s => if d = "a.com" ∧ s = Stage.install then Except.error "boom" else Except.ok ())
    (fun _ => none) "t" "o" [⟨"a.com", []⟩, ⟨"b.com", []⟩]
  refine ⟨h.1.trans (by decide), ?_, ?_⟩
  · exact h.2.2.2 ⟨"b.com", []⟩ (by intro s; cases s <;> simp)
  · exact h.2.2.1 ⟨"a.com", []⟩ (by decide)

theorem toNat_ofNat_upper {n : Nat} (h1 : 65 ≤ n) (h2 : n ≤ 90) :
    (Char.ofNat (n + 32)).toNat = n + 32 := by
  interval_cases n <;> decide

theorem jsToLower_not_upper (c : Char) :
    ¬(65 ≤ (jsToLower c).toNat ∧ (jsToLower c).toNat ≤ 90) := by
  unfold jsToLower
  split
  · rename_i h
    rw [toNat_ofNat_upper h.1 h.2]
    omega
  · rename_i h
    omega

theorem jsToLower_ne_dot {c : Char} (h : c ≠ '.') : jsToLower c ≠ '.' := by
  unfold jsToLower
  split
  · rename_i hu
    intro he
    have := congrArg Char.toNat he
    rw [toNat_ofNat_upper hu.1 hu.2] at this
    simp only [show ('.').toNat = 46 from rfl] at this
    omega
  · exact h

theorem packageNameOf_no_dot (d : String) : '.' ∉ (packageNameOf d).data := by
  intro hm
  simp only [packageNameOf, toLowerJS, dotsToDashes, List.map_map] at hm
  rw [List.mem_map] at hm
  obtain ⟨y, _, hy⟩ := hm
  simp only [Function.comp_apply] at hy
  by_cases hd : y = '.'
  · rw [hd] at hy
    simp only [if_pos rfl] at hy
    exact jsToLower_ne_dot (by decide) hy
  · rw [if_neg hd] at hy
    exact jsToLower_ne_dot hd hy

theorem packageNameOf_no_upper (d : String) :
    ∀ c ∈ (packageNameOf d).data, ¬(65 ≤ c.toNat ∧ c.toNat ≤ 90) := by
  intro c hm
  simp only [packageNameOf, toLowerJS, dotsToDashes, List.map_map] at hm
  rw [List.mem_map] at hm
  obtain ⟨y, _, hy⟩ := hm
  simp only [Function.comp_apply] at hy
  rw [← hy]
  exact jsToLower_not_upper _

theorem runStages_finalize (env0 : Stage → Except String Unit) (present : Bool)
    (h : Stage.finalize ∈ (runStages env0 (stagesFor present)).1) :
    [Stage.materialize, Stage.substitute, Stage.finalize].isPrefixOf
      (runStages env0 (stagesFor present)).1 = true := by
  cases present with
  | false =>
    exfalso
    have := runStages_subset env0 (stagesFor false) _ h
    simp [stagesFor] at this
  | true =>
    simp only [stagesFor, if_pos] at h ⊢
    cases hm : env0 Stage.materialize with
    | error e => simp [runStages, hm] at h
    | ok u =>
      cases hs : env0 Stage.substitute with
      | error e => simp [runStages, hm, hs] at h
      | ok u =>
        cases hf : env0 Stage.finalize with
        | error e => simp [runStages, hm, hs, hf] at h
        | ok u => simp [runStages, hm, hs, hf, List.isPrefixOf]

/-- C8: in every row pipeline the `package.json` rewrite runs only after the
substitution step has completed; a missing manifest skips the rewrite without
failing the row; and when the manifest is written, its identity field is the
row's domain with dots replaced by dashes and upper-case letters folded (so
it contains no dot and no upper-case ASCII letter), while its external-URL
field is `https://` followed by the domain. -/
theorem C8_finalizer (env : String → Stage → Except String Unit)
    (manifest : String → Option PkgJson) (domain : String)
    (data : List (List Char × List Char)) (tp op : String)
    (res : BuildResult) (tr : List Stage) (written : Option PkgJson)
    (h : buildWebsite env manifest domain data tp op = (res, tr, written)) :
    (Stage.finalize ∈ tr →
      [Stage.materialize, Stage.substitute, Stage.finalize].isPrefixOf tr = true) ∧
    (manifest domain = none → Stage.finalize ∉ tr ∧
      ((∀ s, env domain s = Except.ok ()) → res.success = true)) ∧
    (∀ p, written = some p →
      p.name = packageNameOf domain ∧ p.homepage = homepageOf domain ∧
      '.' ∉ p.name.data ∧ ∀ c ∈ p.name.data, ¬(65 ≤ c.toNat ∧ c.toNat ≤ 90)) := by
  have htr : tr = (runStages (env domain) (stagesFor (manifest domain).isSome)).1 := by
    have h21 : (buildWebsite env manifest domain data tp op).2.1 = tr := by rw [h]
    rw [← h21]
    simp only [buildWebsite]
    cases (runStages (env domain) (stagesFor (manifest domain).isSome)).2 <;> rfl
  have hwr : written =
      (if Stage.finalize ∈ (runStages (env domain) (stagesFor (manifest domain).isSome)).1
       then some { name := packageNameOf domain, homepage := homepageOf domain }
       else none) := by
    have h22 : (buildWebsite env manifest domain data tp op).2.2 = written := by rw [h]
    rw [← h22]
    simp only [buildWebsite]
    cases (runStages (env domain) (stagesFor (manifest domain).isSome)).2 <;> rfl
  refine ⟨?_, ?_, ?_⟩
  · intro hf
    rw [htr] at hf ⊢
    exact runStages_finalize (env domain) _ hf
  · intro hnone
    constructor
    · rw [htr]
      intro hf
      have := runStages_subset (env domain) _ _ hf
      rw [hnone] at this
      simp [stagesFor] at this
    · intro hok
      have hrun := runStages_ok (env domain) (stagesFor (manifest domain).isSome)
        (fun s _ => hok s)
      have : (buildWebsite env manifest domain data tp op).1.success = true := by
        simp only [buildWebsite, hrun]
      rw [h] at this
      exact this
  · intro p hp
    rw [hwr] at hp
    split at hp
    · have hpe : p = { name := packageNameOf domain, homepage := homepageOf domain } := by
        exact (Option.some.injEq _ _ ▸ hp).symm
      subst hpe
      exact ⟨rfl, rfl, packageNameOf_no_dot domain, packageNameOf_no_upper domain⟩
    · exact absurd hp (by simp)

/-- Witness for C8 at concrete inputs: with every step succeeding and a
manifest present, the trace runs the finalizer strictly after substitution
and writes the slugged name and homepage for domain `My.Site.COM`; with the
manifest absent, the finalizer is skipped and the row still succeeds. -/
theorem C8_finalizer_witness :
    ([Stage.materialize, Stage.substitute, Stage.finalize].isPrefixOf
      (buildWebsite (fun _ _ => Except.ok ())
        (fun _ => some { name := "x", homepage := "y" }) "My.Site.COM" [] "t" "o").2.1 = true) ∧
    (∀ p, (buildWebsite (fun _ _ => Except.ok ())
        (fun _ => some { name := "x", homepage := "y" }) "My.Site.COM" [] "t" "o").2.2 = some p →
      p.name = packageNameOf "My.Site.COM" ∧ p.homepage = homepageOf "My.Site.COM" ∧
      '.' ∉ p.name.data ∧ ∀ c ∈ p.name.data, ¬(65 ≤ c.toNat ∧ c.toNat ≤ 90)) ∧
    (Stage.finalize ∉ (buildWebsite (fun _ _ => Except.ok ())
        (fun _ => none) "plain.com" [] "t" "o").2.1 ∧
      (buildWebsite (fun _ _ => Except.ok ())
        (fun _ => none) "plain.com" [] "t" "o").1.success = true) := by
  have h1 := C8_finalizer (fun _ _ => Except.ok ())
    (fun _ => some { name := "x", homepage := "y" }) "My.Site.COM" [] "t" "o"
    (buildWebsite (fun _ _ => Except.ok ())
      (fun _ => some { name := "x", homepage := "y" }) "My.Site.COM" [] "t" "o").1
    (buildWebsite (fun _ _ => Except.ok ())
      (fun _ => some { name := "x", homepage := "y" }) "My.Site.COM" [] "t" "o").2.1
    (buildWebsite (fun _ _ => Except.ok ())
      (fun _ => some { name := "x", homepage := "y" }) "My.Site.COM" [] "t" "o").2.2
    rfl
  have h2 := C8_finalizer (fun _ _ => Except.ok ()) (fun _ => none) "plain.com" [] "t" "o"
    (buildWebsite (fun _ _ => Except.ok ()) (fun _ => none) "plain.com" [] "t" "o").1
    (buildWebsite (fun _ _ => Except.ok ()) (fun _ => none) "plain.com" [] "t" "o").2.1
    (buildWebsite (fun _ _ => Except.ok ()) (fun _ => none) "plain.com" [] "t" "o").2.2
    rfl
  refine ⟨h1.1 (by decide), h1.2.2, ?_, (h2.2.1 rfl).2 (fun s => rfl)⟩
  exact (h2.2.1 rfl).1
